import Mathlib

/-!
Verification development for the molyso signal-processing core
(`molyso/generic/signal.py` and `molyso/mm/cell_detection.py`).

Python/numpy values are modelled as follows:

* numeric arrays become `List ℚ` (exact arithmetic in place of IEEE doubles);
* where the source can produce non-finite IEEE values (the `float('Inf')`
  degenerate-envelope fallback of `find_extrema_and_prominence`, division by
  zero in `normalize`, the mean of an empty slice), values live in `XQ`, an
  extended-rational type with `pinf`, `ninf` and `nan` mirroring IEEE
  semantics for the operations the source uses;
* `numpy.std` is an exact square root, so `threshold_outliers` is modelled
  over `ℝ` (`Real.sqrt` of the rational variance);
* a Python exception is modelled as `Option.none`;
* external library primitives that the repository calls but whose numeric
  output has no exact specification (the scipy `UnivariateSpline` fit, the
  Otsu threshold and the Hamming-window smoother from modules outside the
  embedded sources) are taken as parameters, so every theorem below holds
  for each possible implementation of them.
-/

namespace Molyso

/-- Extended rationals: a finite rational, plus `pinf`, `ninf`, `nan`
mirroring the IEEE special values that the modelled numpy code can create. -/
inductive XQ where
  | fin : ℚ → XQ
  | pinf : XQ
  | ninf : XQ
  | nan : XQ
deriving DecidableEq

/-- IEEE-style subtraction on `XQ` (`inf - inf` and any `nan` operand give `nan`). -/
def XQ.sub : XQ → XQ → XQ
  | XQ.fin a, XQ.fin b => XQ.fin (a - b)
  | XQ.fin _, XQ.pinf => XQ.ninf
  | XQ.fin _, XQ.ninf => XQ.pinf
  | XQ.pinf, XQ.fin _ => XQ.pinf
  | XQ.pinf, XQ.ninf => XQ.pinf
  | XQ.ninf, XQ.fin _ => XQ.ninf
  | XQ.ninf, XQ.pinf => XQ.ninf
  | XQ.pinf, XQ.pinf => XQ.nan
  | XQ.ninf, XQ.ninf => XQ.nan
  | XQ.nan, _ => XQ.nan
  | _, XQ.nan => XQ.nan

/-- IEEE-style addition on `XQ`. -/
def XQ.add : XQ → XQ → XQ
  | XQ.fin a, XQ.fin b => XQ.fin (a + b)
  | XQ.fin _, XQ.pinf => XQ.pinf
  | XQ.fin _, XQ.ninf => XQ.ninf
  | XQ.pinf, XQ.fin _ => XQ.pinf
  | XQ.pinf, XQ.pinf => XQ.pinf
  | XQ.ninf, XQ.fin _ => XQ.ninf
  | XQ.ninf, XQ.ninf => XQ.ninf
  | XQ.pinf, XQ.ninf => XQ.nan
  | XQ.ninf, XQ.pinf => XQ.nan
  | XQ.nan, _ => XQ.nan
  | _, XQ.nan => XQ.nan

/-- IEEE-style division on `XQ`: `0/0 = nan`, `c/0 = ±inf` for `c ≠ 0`
(numpy has no signed zero in this exact model, so `c/0` takes the sign of `c`). -/
def XQ.div : XQ → XQ → XQ
  | XQ.fin a, XQ.fin b =>
    if b = 0 then (if a = 0 then XQ.nan else if 0 < a then XQ.pinf else XQ.ninf)
    else XQ.fin (a / b)
  | XQ.fin _, XQ.pinf => XQ.fin 0
  | XQ.fin _, XQ.ninf => XQ.fin 0
  | XQ.pinf, XQ.fin _ => XQ.pinf
  | XQ.ninf, XQ.fin _ => XQ.ninf
  | XQ.pinf, XQ.pinf => XQ.nan
  | XQ.pinf, XQ.ninf => XQ.nan
  | XQ.ninf, XQ.pinf => XQ.nan
  | XQ.ninf, XQ.ninf => XQ.nan
  | XQ.nan, _ => XQ.nan
  | _, XQ.nan => XQ.nan

/-- IEEE-style pairwise minimum (numpy reductions propagate `nan`). -/
def XQ.minv : XQ → XQ → XQ
  | XQ.nan, _ => XQ.nan
  | _, XQ.nan => XQ.nan
  | XQ.fin a, XQ.fin b => XQ.fin (min a b)
  | XQ.ninf, _ => XQ.ninf
  | _, XQ.ninf => XQ.ninf
  | XQ.pinf, x => x
  | x, XQ.pinf => x

/-- IEEE-style pairwise maximum (numpy reductions propagate `nan`). -/
def XQ.maxv : XQ → XQ → XQ
  | XQ.nan, _ => XQ.nan
  | _, XQ.nan => XQ.nan
  | XQ.fin a, XQ.fin b => XQ.fin (max a b)
  | XQ.pinf, _ => XQ.pinf
  | _, XQ.pinf => XQ.pinf
  | XQ.ninf, x => x
  | x, XQ.ninf => x

/-- Comparison `x > q` against a finite rational; false on `nan` (IEEE). -/
def XQ.gtQ : XQ → ℚ → Bool
  | XQ.fin a, q => decide (q < a)
  | XQ.pinf, _ => true
  | XQ.ninf, _ => false
  | XQ.nan, _ => false

/-- numpy `.min()` reduction: raises (`none`) on an empty array. -/
def npMinX (l : List XQ) : Option XQ :=
  match l with
  | [] => none
  | x :: xs => some (xs.foldl XQ.minv x)

/-- numpy `.max()` reduction: raises (`none`) on an empty array. -/
def npMaxX (l : List XQ) : Option XQ :=
  match l with
  | [] => none
  | x :: xs => some (xs.foldl XQ.maxv x)

/-- Sum of an `XQ` list (numpy `sum`, starting from `0`). -/
def xqSum (l : List XQ) : XQ :=
  l.foldl XQ.add (XQ.fin 0)

/-- numpy `.mean()` on an `XQ` array: sum divided by length.
On the empty array this is `0/0 = nan`, exactly as numpy warns-and-returns. -/
def xqMean (l : List XQ) : XQ :=
  XQ.div (xqSum l) (XQ.fin (l.length : ℚ))

/-- Rational minimum of a nonempty list (`0` for `[]`; callers are nonempty). -/
def qminL : List ℚ → ℚ
  | [] => 0
  | x :: xs => xs.foldl min x

/-- Rational maximum of a nonempty list (`0` for `[]`; callers are nonempty). -/
def qmaxL : List ℚ → ℚ
  | [] => 0
  | x :: xs => xs.foldl max x

/-- numpy mean of a rational array (`sum/len`; `0` for `[]` — the sole place the
`ℚ` model of an empty mean differs from numpy's `nan` is dead in every use). -/
def npMean (l : List ℚ) : ℚ :=
  l.sum / (l.length : ℚ)

/-- Python slice `xs[l:p]` (out-of-range bounds clip, as in Python). -/
def pySlice (xs : List α) (l p : ℕ) : List α :=
  (xs.take p).drop l

/-- First index of the maximal element, tail-recursive worker. -/
def npArgmaxGo [LinearOrder α] : List α → α → ℕ → ℕ → ℕ
  | [], _, bi, _ => bi
  | y :: ys, b, bi, i => if b < y then npArgmaxGo ys y i (i + 1) else npArgmaxGo ys b bi (i + 1)

/-- numpy `argmax`: first index attaining the maximum; raises (`none`) on `[]`. -/
def npArgmax [LinearOrder α] : List α → Option ℕ
  | [] => none
  | x :: xs => some (npArgmaxGo xs x 0 1)

/-- First index of the minimal element, tail-recursive worker. -/
def npArgminGo [LinearOrder α] : List α → α → ℕ → ℕ → ℕ
  | [], _, bi, _ => bi
  | y :: ys, b, bi, i => if y < b then npArgminGo ys y i (i + 1) else npArgminGo ys b bi (i + 1)

/-- numpy `argmin`: first index attaining the minimum; raises (`none`) on `[]`. -/
def npArgmin [LinearOrder α] : List α → Option ℕ
  | [] => none
  | x :: xs => some (npArgminGo xs x 0 1)

/-- numpy `.max()` on a linearly ordered array; raises (`none`) on `[]`. -/
def npMaxL [LinearOrder α] : List α → Option α
  | [] => none
  | x :: xs => some (xs.foldl max x)

/-- numpy `.min()` on a linearly ordered array; raises (`none`) on `[]`. -/
def npMinL [LinearOrder α] : List α → Option α
  | [] => none
  | x :: xs => some (xs.foldl min x)

/-- Index clipping used by `scipy.signal.argrelmax` (`mode='clip'`, the default):
`take(..., mode='clip')` clamps an integer index into `[0, n-1]`. -/
def clipIdx (n : ℕ) (j : ℤ) : ℕ :=
  if j < 0 then 0 else if (n : ℤ) - 1 < j then n - 1 else j.toNat

/-- Model of `scipy.signal._boolrelextrema` with strict comparator `c`: index `i` is kept
iff `signal[i] c signal[clip(i±s)]` for every shift `s ∈ [1, order]`. -/
def boolRelExtrema (c : ℚ → ℚ → Bool) (signal : List ℚ) (order : ℕ) : List ℕ :=
  (List.range signal.length).filter fun i =>
    (List.range order).all fun s =>
      c (signal.getD i 0) (signal.getD (clipIdx signal.length ((i : ℤ) + (s + 1))) 0) &&
      c (signal.getD i 0) (signal.getD (clipIdx signal.length ((i : ℤ) - (s + 1))) 0)

/-- Embedding of `relative_maxima` (molyso wraps `scipy.signal.argrelmax`); scipy raises
`ValueError` (`none`) iff `order < 1`. -/
def relative_maxima (signal : List ℚ) (order : ℕ) : Option (List ℕ) :=
  if order < 1 then none
  else some (boolRelExtrema (fun a b => decide (b < a)) signal order)

/-- Embedding of `relative_minima` (molyso wraps `scipy.signal.argrelmin`); scipy raises
`ValueError` (`none`) iff `order < 1`. -/
def relative_minima (signal : List ℚ) (order : ℕ) : Option (List ℕ) :=
  if order < 1 then none
  else some (boolRelExtrema (fun a b => decide (a < b)) signal order)

/-- Python truthiness of the `last_true` variable in `find_insides`:
`None` is falsy, and so is the integer `0` — the boundary quirk under study. -/
def pyTruthy : Option ℕ → Bool
  | none => false
  | some n => decide (n ≠ 0)

/-- Loop of `find_insides`: walks the boolean signal with the enumeration index
and the `last_true` state, accumulating closed `[start, stop]` pairs. -/
def findInsidesGo : List Bool → ℕ → Option ℕ → List (ℕ × ℕ) → List (ℕ × ℕ) × Option ℕ
  | [], _, lastTrue, pairs => (pairs, lastTrue)
  | i :: rest, n, lastTrue, pairs =>
    if i && !(pyTruthy lastTrue) then
      findInsidesGo rest (n + 1) (some n) pairs
    else if !i && pyTruthy lastTrue then
      findInsidesGo rest (n + 1) none (pairs ++ [(lastTrue.getD 0, n)])
    else
      findInsidesGo rest (n + 1) lastTrue pairs

/-- Embedding of `find_insides` from `molyso/generic/signal.py`: locates contiguous
true-runs; after the loop, a still-truthy `last_true` closes at `len-1`. -/
def find_insides (signal : List Bool) : List (ℕ × ℕ) :=
  let r := findInsidesGo signal 0 none []
  if pyTruthy r.2 then r.1 ++ [(r.2.getD 0, signal.length - 1)] else r.1

/-- Embedding of `normalize` from `molyso/generic/signal.py`: `astype(float)` (identity on
this model), subtract the minimum, divide by the maximum of the shifted data.
`none` models the `ValueError` numpy raises reducing an empty array. -/
def normalize (data : List XQ) : Option (List XQ) :=
  match npMinX data with
  | none => none
  | some m =>
    let shifted := data.map fun x => x.sub m
    match npMaxX shifted with
    | none => none
    | some bigM => some (shifted.map fun x => x.div bigM)

/-- Result record of `find_extrema_and_prominence` (the `ExtremeAndProminence`
namedtuple of `molyso/generic/signal.py`). -/
structure ExtremeAndProminence where
  maxima : List ℕ
  minima : List ℕ
  signal : List ℚ
  order : ℕ
  max_spline : ℚ → XQ
  min_spline : ℚ → XQ
  xpts : List ℚ
  max_spline_points : List XQ
  min_spline_points : List XQ
  prominence : List XQ

/-- Type of the external spline-fit primitive
(`scipy.interpolate.UnivariateSpline`): control abscissae, control ordinates,
`bbox`, degree `k`, then an evaluation point. The scipy fit has no exact
numeric specification, so the development quantifies over all such functions. -/
def SplineFitter : Type :=
  List ℚ → List ℚ → ℚ × ℚ → ℕ → ℚ → ℚ

/-- The `while iorder > 0: try relative_maxima … except ValueError: iorder -= 1`
loop of `find_extrema_and_prominence`; `dflt` is the preceding
`numpy.array([numpy.argmax(signal)])` fallback (kept if the loop never binds). -/
def fepLoop (rel : List ℚ → ℕ → Option (List ℕ)) (signal : List ℚ) (dflt : List ℕ) :
    ℕ → List ℕ
  | 0 => dflt
  | i + 1 =>
    match rel signal (i + 1) with
    | some v => v
    | none => fepLoop rel signal dflt i

/-- Embedding of `find_extrema_and_prominence` from `molyso/generic/signal.py`,
parameterised by the two external spline fits. `none` models the
`ValueError` that `numpy.argmax` / `numpy.argmin` raise on an empty signal.
The anchored control sequences prepend index 0 (with the first detected
extremum's value) and append index `N-1` (with the last one's value); the
`k < 1` degenerate branch substitutes an everywhere-infinite envelope. -/
def find_extrema_and_prominence (maxFit minFit : SplineFitter) (signal : List ℚ)
    (order : ℕ) : Option ExtremeAndProminence :=
  match npArgmax signal, npArgmin signal with
  | some am, some an =>
    let maxima0 := fepLoop relative_maxima signal [am] order
    let maxima := if maxima0 = [] then [am] else maxima0
    let minima0 := fepLoop relative_minima signal [an] order
    let minima := if minima0 = [] then [an] else minima0
    let n := signal.length
    let maximaY := maxima.map fun i => signal.getD i 0
    let minimaY := minima.map fun i => signal.getD i 0
    let maximaintpx : List ℚ := [0] ++ maxima.map (fun i : ℕ => (i : ℚ)) ++ [(n : ℚ) - 1]
    let maximaintpy : List ℚ := [maximaY.getD 0 0] ++ maximaY ++ [maximaY.getLastD 0]
    let minimaintpx : List ℚ := [0] ++ minima.map (fun i : ℕ => (i : ℚ)) ++ [(n : ℚ) - 1]
    let minimaintpy : List ℚ := [minimaY.getD 0 0] ++ minimaY ++ [minimaY.getLastD 0]
    let kmax := if maximaintpy.length ≤ 3 then maximaintpy.length - 1 else 3
    let kmin := if minimaintpy.length ≤ 3 then minimaintpy.length - 1 else 3
    let maxSpl : ℚ → XQ :=
      if kmax < 1 then fun _ => XQ.pinf
      else fun t => XQ.fin (maxFit maximaintpx maximaintpy (0, (n : ℚ)) kmax t)
    let minSpl : ℚ → XQ :=
      if kmin < 1 then fun _ => XQ.ninf
      else fun t => XQ.fin (minFit minimaintpx minimaintpy (0, (n : ℚ)) kmin t)
    let xpts : List ℚ := (List.range n).map fun i : ℕ => (i : ℚ)
    let maxsy := xpts.map maxSpl
    let minsy := xpts.map minSpl
    some ⟨maxima, minima, signal, order, maxSpl, minSpl, xpts, maxsy, minsy,
      List.zipWith XQ.sub maxsy minsy⟩
  | _, _ => none

/-- numpy round-half-to-even of a rational to an integer. -/
def nroundHalfEven (q : ℚ) : ℤ :=
  let f := ⌊q⌋
  if q - f < 1 / 2 then f
  else if 1 / 2 < q - f then f + 1
  else if 2 ∣ f then f else f + 1

/-- The source step `profile.round(8)` applied entrywise: round half-to-even at 8 decimals. -/
def round8 (q : ℚ) : ℚ :=
  (nroundHalfEven (q * 10 ^ 8) : ℚ) / 10 ^ 8

/-- numpy `median`: midpoint of the sorted data (mean of the two central
entries for even length). Empty input is dead at every call site. -/
def npMedian (l : List ℚ) : ℚ :=
  let s := List.insertionSort (· ≤ ·) l
  if l.length % 2 = 1 then s.getD (l.length / 2) 0
  else (s.getD (l.length / 2 - 1) 0 + s.getD (l.length / 2) 0) / 2

/-- numpy population variance: mean of squared deviations from the mean. -/
def npVariance (l : List ℚ) : ℚ :=
  (l.map fun x => (x - npMean l) ^ 2).sum / (l.length : ℚ)

/-- numpy `std`: square root of the population variance (an exact real). -/
noncomputable def npStd (l : List ℚ) : ℝ :=
  Real.sqrt (npVariance l)

/-- Embedding of `threshold_outliers` from `molyso/generic/signal.py` on float data:
copy, then two sequential masked assignments — an unconditional upper clamp to
`median + times_std*std`, then a lower clamp (on the already-clamped data) of
values below the median deviating by more than `times_std*std`. -/
noncomputable def threshold_outliers (data : List ℚ) (times_std : ℚ) : List ℝ :=
  let med : ℚ := npMedian data
  let sd : ℝ := npStd data
  let d1 : List ℝ := data.map fun x : ℚ =>
    if (x : ℝ) - (med : ℝ) > (times_std : ℝ) * sd then (med : ℝ) + times_std * sd else (x : ℝ)
  d1.map fun x : ℝ =>
    if x - (med : ℝ) < 0 ∧ |x - (med : ℝ)| > (times_std : ℝ) * sd then (med : ℝ) - times_std * sd else x

/-- numpy float-to-int64 cast: C truncation toward zero. -/
noncomputable def castIntTrunc (x : ℝ) : ℤ :=
  if 0 ≤ x then ⌊x⌋ else ⌈x⌉

/-- Embedding of `threshold_outliers` on an integer-dtype array: the masks are evaluated in
float, but each assigned clamp bound is cast back to the array's integer dtype
(truncation), exactly as numpy in-place assignment coerces. -/
noncomputable def threshold_outliers_int (data : List ℤ) (times_std : ℚ) : List ℤ :=
  let dq : List ℚ := data.map fun i : ℤ => (i : ℚ)
  let med : ℚ := npMedian dq
  let sd : ℝ := npStd dq
  let hi : ℤ := castIntTrunc ((med : ℝ) + times_std * sd)
  let lo : ℤ := castIntTrunc ((med : ℝ) - times_std * sd)
  let d1 : List ℤ := data.map fun x : ℤ =>
    if (x : ℝ) - (med : ℝ) > (times_std : ℝ) * sd then hi else x
  d1.map fun x : ℤ =>
    if (x : ℝ) - (med : ℝ) < 0 ∧ |(x : ℝ) - (med : ℝ)| > (times_std : ℝ) * sd then lo else x

/-- A tiny heap of numpy arrays: addresses are list indices. Used to model the
aliasing behaviour of `threshold_outliers` (its `data = data.copy()` line). -/
structure NpState where
  arrays : List (List ℤ)

/-- Read the array at an address (empty for a dangling address). -/
def npRead (s : NpState) (a : ℕ) : List ℤ :=
  s.arrays.getD a []

/-- Allocate a fresh array, returning the new state and its address. -/
def npAlloc (s : NpState) (v : List ℤ) : NpState × ℕ :=
  (⟨s.arrays ++ [v]⟩, s.arrays.length)

/-- Overwrite the array at an address (in-place numpy masked assignment). -/
def npWrite (s : NpState) (a : ℕ) (v : List ℤ) : NpState :=
  ⟨s.arrays.set a v⟩

/-- The body of `threshold_outliers` run against the heap model: `data` first
rebinds to a fresh copy, and both masked assignments mutate that copy, never
the caller's array. Returns the final heap and the returned array's address. -/
noncomputable def threshold_outliers_prog (s0 : NpState) (dataRef : ℕ)
    (times_std : ℚ) : NpState × ℕ :=
  let al := npAlloc s0 (npRead s0 dataRef)
  let s1 := al.1
  let dref := al.2
  let dq : List ℚ := (npRead s1 dref).map fun i : ℤ => (i : ℚ)
  let med : ℚ := npMedian dq
  let sd : ℝ := npStd dq
  let hi : ℤ := castIntTrunc ((med : ℝ) + times_std * sd)
  let lo : ℤ := castIntTrunc ((med : ℝ) - times_std * sd)
  let s2 := npWrite s1 dref ((npRead s1 dref).map fun x : ℤ =>
    if (x : ℝ) - (med : ℝ) > (times_std : ℝ) * sd then hi else x)
  let s3 := npWrite s2 dref ((npRead s2 dref).map fun x : ℤ =>
    if (x : ℝ) - (med : ℝ) < 0 ∧ |(x : ℝ) - (med : ℝ)| > (times_std : ℝ) * sd then lo else x)
  (s3, dref)

/-- The tunable configuration consumed by `find_cells_in_channel`
(`molyso/generic/tunable.py` registry entries, with their compiled-in defaults
realised by `defaultCellsCfg`). -/
structure CellsCfg where
  emptyChannelSkipping : Bool
  outlierTimesSigma : ℚ
  intensityRangeQuotient : ℚ
  otsuBias : ℚ
  smoothingLength : ℕ
  extremaOrder : ℕ
  maximumBrightness : ℚ
  minimumProminence : ℚ

/-- The compiled-in defaults of the tunables used by `find_cells_in_channel`. -/
def defaultCellsCfg : CellsCfg :=
  ⟨false, 2, 1 / 2, 1, 10, 15, 1 / 2, 10⟩

/-- Embedding of `vertical_mean`: average over axis 1 (each row of the HORIZONTAL x VERTICAL
image), producing the along-channel intensity profile. -/
def vertical_mean (image : List (List ℚ)) : List ℚ :=
  image.map npMean

/-- Embedding of `simple_baseline_correction` from `molyso/generic/signal.py`: subtract a
strongly smoothed copy; an unset or over-long window defaults to the signal
length. The Hamming smoother lives outside the embedded sources and is a
parameter. -/
def simple_baseline_correction (hammingSmooth : List ℚ → ℕ → List ℚ)
    (signal : List ℚ) (window_width : Option ℕ) : List ℚ :=
  let w : ℕ :=
    match window_width with
    | none => signal.length
    | some ww => if signal.length < ww then signal.length else ww
  List.zipWith (fun a b => a - b) signal (hammingSmooth signal w)

/-- The Otsu-binarized mean profile of `find_cells_in_channel`:
`image > threshold_otsu(image) * otsu_bias`, cast to float, then
`vertical_mean`. The Otsu primitive is an external parameter. -/
def binary_profile (otsuThr : List (List ℚ) → ℚ) (bias : ℚ)
    (image : List (List ℚ)) : List ℚ :=
  vertical_mean (image.map (List.map fun v => if otsuThr image * bias < v then (1 : ℚ) else 0))

/-- The processed profile of `find_cells_in_channel`: baseline-correct the
vertical mean, smooth with the configured window, round to 8 decimals. -/
def processed_profile (hammingSmooth : List ℚ → ℕ → List ℚ) (smoothLen : ℕ)
    (image : List (List ℚ)) : List ℚ :=
  (hammingSmooth (simple_baseline_correction hammingSmooth (vertical_mean image) none)
    smoothLen).map round8

/-- The `is_a_cell` filter of `find_cells_in_channel`: a candidate segment
`(last_pos, pos)` is a cell iff it is wider than 2 pixels, dark enough on the
binarized profile, and prominent enough on the mean prominence.
The `&&` mirrors Python's short-circuit `and` (the two means are only
meaningful when the width test has already passed). -/
def is_a_cell (pbin : List ℚ) (prom : List XQ) (maxBrightness minProminence : ℚ)
    (lastPos pos : ℕ) : Bool :=
  decide (pos - lastPos > 2) &&
  decide (npMean (pySlice pbin lastPos pos) < maxBrightness) &&
  XQ.gtQ (xqMean (pySlice prom lastPos pos)) minProminence

/-- The candidate split points of `find_cells_in_channel`: every detected
maximum of strictly positive prominence, then the sentinel `profile.size`. -/
def candidate_positions (ext : ExtremeAndProminence) (profLen : ℕ) : List ℕ :=
  (ext.maxima.filter fun p => XQ.gtQ (ext.prominence.getD p XQ.nan) 0) ++ [profLen]

/-- Embedding of `find_cells_in_channel` from `molyso/mm/cell_detection.py`, parameterised
by the external Hamming smoother, Otsu threshold and spline fits. `none`
models an uncaught exception (only possible on an empty image). The
`DebugPlot` block is visualization-only and has no effect on the result. -/
noncomputable def find_cells_in_channel (hammingSmooth : List ℚ → ℕ → List ℚ)
    (otsuThr : List (List ℚ) → ℚ) (maxFit minFit : SplineFitter)
    (cfg : CellsCfg) (image : List (List ℚ)) : Option (List (ℕ × ℕ)) :=
  let profile := vertical_mean image
  let thresholded := threshold_outliers profile cfg.outlierTimesSigma
  match npMaxL thresholded, npMinL thresholded with
  | some tmax, some tmin =>
    if (tmax - tmin) / tmax < (cfg.intensityRangeQuotient : ℝ) ∧
        cfg.emptyChannelSkipping = true then
      some []
    else
      let pbin := binary_profile otsuThr cfg.otsuBias image
      let prof := processed_profile hammingSmooth cfg.smoothingLength image
      match find_extrema_and_prominence maxFit minFit prof cfg.extremaOrder with
      | none => none
      | some ext =>
        let positions := candidate_positions ext prof.length
        some ((List.zip (0 :: positions) positions).filterMap fun lp =>
          if is_a_cell pbin ext.prominence cfg.maximumBrightness cfg.minimumProminence
              lp.1 lp.2 then
            some (lp.1 + 1, lp.2 - 1)
          else none)
  | _, _ => none

/-- Modelled from the spec: the forward frequency-domain transform used by
`find_phase` (the `fft` helper module of the repository is not among the
embedded sources; per the spec, `find_phase` computes the frequency-domain
transforms of both signals). Standard DFT over `ℂ`. -/
noncomputable def dft (x : List ℂ) : List ℂ :=
  (List.range x.length).map fun k : ℕ =>
    ∑ n ∈ Finset.range x.length,
      x.getD n 0 * Complex.exp (-(2 * (Real.pi : ℂ) * Complex.I) * k * n / x.length)

/-- Modelled from the spec: the inverse transform used by `find_phase`
(standard inverse DFT over `ℂ`, with the `1/N` normalisation). -/
noncomputable def idft (y : List ℂ) : List ℂ :=
  (List.range y.length).map fun n : ℕ =>
    (∑ k ∈ Finset.range y.length,
      y.getD k 0 * Complex.exp (2 * (Real.pi : ℂ) * Complex.I * k * n / y.length)) / y.length

/-- Embedding of `find_phase` from `molyso/generic/signal.py` (the returned shift, the first
component of its result tuple; the `return_1` / `return_2` flags only append
the cached transforms): `corr = ifft(fft_1 * -conjugate(fft_2))`, take the
magnitude, `argmax`, then fold the peak index into a signed shift. `none`
models the `ValueError` of `numpy.argmax` on empty input. -/
noncomputable def find_phase (signal_1 signal_2 : List ℂ) : Option ℤ :=
  let fft_1 := dft signal_1
  let fft_2 := dft signal_2
  let corr := idft (List.zipWith (fun a b => a * -(starRingEnd ℂ b)) fft_1 fft_2)
  let corrAbs : List ℝ := corr.map Complex.abs
  match npArgmax corrAbs with
  | none => none
  | some m =>
    some (if (m : ℝ) < (fft_1.length : ℝ) / 2 then -(m : ℤ) else (fft_1.length : ℤ) - m)

/-! ### Sanity checks against the source doctests -/

/-- Doctest of `relative_maxima` / `relative_minima` in `signal.py`. -/
theorem relative_extrema_doctest :
    relative_maxima [1, 2, 3, 2, 1, 0, 1, 2, 15, 2, -15, 2, 1] 2 = some [2, 8] ∧
    relative_minima [1, 2, 3, 2, 1, 0, 1, 2, 15, 2, -15, 2, 1] 2 = some [5, 10] := by
  decide

/-- Doctest of `find_insides` in `signal.py`. -/
theorem find_insides_doctest :
    find_insides [false, false, true, true, true, false, false, true, true, false, false] =
      [(2, 5), (7, 9)] := by
  decide

/-- Doctest of `normalize` in `signal.py`. -/
theorem normalize_doctest :
    normalize ([0, 1, 2, 3, 4, 5, 6, 7, 8, 9, 10].map XQ.fin) =
      some ([0, 1/10, 1/5, 3/10, 2/5, 1/2, 3/5, 7/10, 4/5, 9/10, 1].map XQ.fin) := by
  norm_num [normalize, npMinX, npMaxX, XQ.minv, XQ.maxv, XQ.sub, XQ.div, min_def, max_def]

/-! ### C7: the index-0 boundary behaviour of `find_insides` -/

/-- C7 (counterexample): for the signal `[True, True, False]`, whose only
true-run starts at index 0 and ends before the signal does, `find_insides`
DOES report a pair — `[1, 2]` — contradicting the claim that a run starting
at index 0 fails to close and is not reported. -/
theorem find_insides_run_at_zero_is_reported :
    find_insides [true, true, false] = [(1, 2)] ∧
      find_insides [true, true, false] ≠ [] := by
  decide

/-- One loop step of `find_insides` cannot distinguish the states
`last_true = 0` and `last_true = None` (both are falsy in Python), so runs
from either state produce the same pairs, and their final states are either
equal or the falsy pair `(some 0, none)`. -/
theorem findInsidesGo_zero_none (rest : List Bool) :
    ∀ n ps, (findInsidesGo rest n (some 0) ps).1 = (findInsidesGo rest n none ps).1 ∧
      ((findInsidesGo rest n (some 0) ps).2 = (findInsidesGo rest n none ps).2 ∨
        ((findInsidesGo rest n (some 0) ps).2 = some 0 ∧
          (findInsidesGo rest n none ps).2 = none)) := by
  induction rest with
  | nil => exact fun n ps => ⟨rfl, Or.inr ⟨rfl, rfl⟩⟩
  | cons i rest ih =>
    intro n ps
    cases i with
    | true =>
      simp only [findInsidesGo, pyTruthy]
      norm_num
    | false =>
      simpa only [findInsidesGo, pyTruthy, Bool.false_and, Bool.and_false,
        Bool.not_false, decide_not, if_false, Bool.false_eq_true, ite_false] using
        ih (n + 1) ps

/-- C7 (amended): `find_insides` treats a stored run-start of index 0 as falsy,
so a leading `True` at index 0 behaves exactly as if `signal[0]` were `False`:
the run's start is re-recorded at index 1 when the run continues (the reported
pair starts at 1 instead of 0), and a run consisting of index 0 alone is
dropped entirely — it is NOT the case that every run starting at 0 goes
unreported. -/
theorem find_insides_leading_true_as_false (rest : List Bool) :
    find_insides (true :: rest) = find_insides (false :: rest) := by
  have eA : findInsidesGo (true :: rest) 0 none [] = findInsidesGo rest 1 (some 0) [] := by
    simp [findInsidesGo, pyTruthy]
  have eB : findInsidesGo (false :: rest) 0 none [] = findInsidesGo rest 1 none [] := by
    simp [findInsidesGo, pyTruthy]
  obtain ⟨h1, h2 | ⟨ha, hb⟩⟩ := findInsidesGo_zero_none rest 1 []
  · simp only [find_insides, eA, eB, h1, h2, List.length_cons]
  · simp only [find_insides, eA, eB, h1, ha, hb, pyTruthy]
    norm_num

/-! ### Helper lemmas: rational folds for minima and maxima -/

/-- The fold underlying `npMinX` on all-finite data computes the rational fold. -/
theorem foldl_minv_fin (xs : List ℚ) :
    ∀ a : ℚ, (xs.map XQ.fin).foldl XQ.minv (XQ.fin a) = XQ.fin (xs.foldl min a) := by
  induction xs with
  | nil => intro a; rfl
  | cons y ys ih => intro a; simpa [XQ.minv] using ih (min a y)

/-- The fold underlying `npMaxX` on all-finite data computes the rational fold. -/
theorem foldl_maxv_fin (xs : List ℚ) :
    ∀ a : ℚ, (xs.map XQ.fin).foldl XQ.maxv (XQ.fin a) = XQ.fin (xs.foldl max a) := by
  induction xs with
  | nil => intro a; rfl
  | cons y ys ih => intro a; simpa [XQ.maxv] using ih (max a y)

/-- A rational min-fold is bounded by its initial accumulator. -/
theorem foldl_min_le_init (xs : List ℚ) : ∀ a : ℚ, xs.foldl min a ≤ a := by
  induction xs with
  | nil => exact fun a => le_refl a
  | cons y ys ih => exact fun a => le_trans (ih (min a y)) (min_le_left a y)

/-- A rational min-fold is bounded by every list member. -/
theorem foldl_min_le_mem (xs : List ℚ) :
    ∀ a x, x ∈ xs → xs.foldl min a ≤ x := by
  induction xs with
  | nil => intro a x hx; cases hx
  | cons y ys ih =>
    intro a x hx
    rcases List.mem_cons.mp hx with h | h
    · subst h; exact le_trans (foldl_min_le_init ys (min a x)) (min_le_right a x)
    · exact ih (min a y) x h

/-- A rational max-fold dominates its initial accumulator. -/
theorem le_foldl_max_init (xs : List ℚ) : ∀ a : ℚ, a ≤ xs.foldl max a := by
  induction xs with
  | nil => exact fun a => le_refl a
  | cons y ys ih => exact fun a => le_trans (le_max_left a y) (ih (max a y))

/-- A rational max-fold dominates every list member. -/
theorem mem_le_foldl_max (xs : List ℚ) :
    ∀ a x, x ∈ xs → x ≤ xs.foldl max a := by
  induction xs with
  | nil => intro a x hx; cases hx
  | cons y ys ih =>
    intro a x hx
    rcases List.mem_cons.mp hx with h | h
    · subst h; exact le_trans (le_max_right a x) (le_foldl_max_init ys (max a x))
    · exact ih (max a y) x h

/-- The fold `qminL` is a lower bound of the list. -/
theorem qminL_le (l : List ℚ) (x : ℚ) (hx : x ∈ l) : qminL l ≤ x := by
  cases l with
  | nil => cases hx
  | cons a as =>
    rcases List.mem_cons.mp hx with h | h
    · subst h; exact foldl_min_le_init as x
    · exact foldl_min_le_mem as a x h

/-- The fold `qmaxL` is an upper bound of the list. -/
theorem le_qmaxL (l : List ℚ) (x : ℚ) (hx : x ∈ l) : x ≤ qmaxL l := by
  cases l with
  | nil => cases hx
  | cons a as =>
    rcases List.mem_cons.mp hx with h | h
    · subst h; exact le_foldl_max_init as x
    · exact mem_le_foldl_max as a x h

/-- On a non-constant list the minimum is strictly below the maximum. -/
theorem qminL_lt_qmaxL (l : List ℚ) (h : ∃ a ∈ l, ∃ b ∈ l, a ≠ b) :
    qminL l < qmaxL l := by
  obtain ⟨a, ha, b, hb, hab⟩ := h
  rcases lt_or_gt_of_ne hab with hlt | hgt
  · exact lt_of_le_of_lt (qminL_le l a ha) (lt_of_lt_of_le hlt (le_qmaxL l b hb))
  · exact lt_of_le_of_lt (qminL_le l b hb) (lt_of_lt_of_le hgt (le_qmaxL l a ha))

/-- Subtracting a constant commutes with the min-fold. -/
theorem foldl_min_map_sub (xs : List ℚ) :
    ∀ a c, (xs.map fun x => x - c).foldl min (a - c) = xs.foldl min a - c := by
  induction xs with
  | nil => intro a c; rfl
  | cons y ys ih => intro a c; simpa [min_sub_sub_right] using ih (min a y) c

/-- Subtracting a constant commutes with the max-fold. -/
theorem foldl_max_map_sub (xs : List ℚ) :
    ∀ a c, (xs.map fun x => x - c).foldl max (a - c) = xs.foldl max a - c := by
  induction xs with
  | nil => intro a c; rfl
  | cons y ys ih => intro a c; simpa [max_sub_sub_right] using ih (max a y) c

/-- The fold `qminL` commutes with an entrywise constant subtraction. -/
theorem qminL_map_sub (x : ℚ) (xs : List ℚ) (c : ℚ) :
    qminL ((x :: xs).map fun y => y - c) = qminL (x :: xs) - c := by
  simpa [qminL] using foldl_min_map_sub xs x c

/-- The fold `qmaxL` commutes with an entrywise constant subtraction. -/
theorem qmaxL_map_sub (x : ℚ) (xs : List ℚ) (c : ℚ) :
    qmaxL ((x :: xs).map fun y => y - c) = qmaxL (x :: xs) - c := by
  simpa [qmaxL] using foldl_max_map_sub xs x c

/-- Dividing by a positive constant commutes with the min-fold. -/
theorem foldl_min_map_div (xs : List ℚ) (c : ℚ) (hc : 0 ≤ c) :
    ∀ a, (xs.map fun x => x / c).foldl min (a / c) = xs.foldl min a / c := by
  induction xs with
  | nil => intro a; rfl
  | cons y ys ih => intro a; simpa [min_div_div_right hc] using ih (min a y)

/-- Dividing by a positive constant commutes with the max-fold. -/
theorem foldl_max_map_div (xs : List ℚ) (c : ℚ) (hc : 0 ≤ c) :
    ∀ a, (xs.map fun x => x / c).foldl max (a / c) = xs.foldl max a / c := by
  induction xs with
  | nil => intro a; rfl
  | cons y ys ih => intro a; simpa [max_div_div_right hc] using ih (max a y)

/-- The fold `qminL` commutes with an entrywise division by a nonnegative constant. -/
theorem qminL_map_div (x : ℚ) (xs : List ℚ) (c : ℚ) (hc : 0 ≤ c) :
    qminL ((x :: xs).map fun y => y / c) = qminL (x :: xs) / c := by
  simpa [qminL] using foldl_min_map_div xs c hc x

/-- The fold `qmaxL` commutes with an entrywise division by a nonnegative constant. -/
theorem qmaxL_map_div (x : ℚ) (xs : List ℚ) (c : ℚ) (hc : 0 ≤ c) :
    qmaxL ((x :: xs).map fun y => y / c) = qmaxL (x :: xs) / c := by
  simpa [qmaxL] using foldl_max_map_div xs c hc x

/-! ### C6, C9: `normalize` -/

/-- Closed form of `normalize` on a nonempty all-finite array: shift by the
minimum, then divide (with IEEE division) by the shifted maximum. -/
theorem normalize_fin_eq (x : ℚ) (xs : List ℚ) :
    normalize ((x :: xs).map XQ.fin) =
      some (((x :: xs).map fun y => y - qminL (x :: xs)).map fun y =>
        XQ.div (XQ.fin y) (XQ.fin (qmaxL (x :: xs) - qminL (x :: xs)))) := by
  have hmin : npMinX ((x :: xs).map XQ.fin) = some (XQ.fin (qminL (x :: xs))) := by
    simpa [npMinX, qminL] using foldl_minv_fin xs x
  have hshift : ((x :: xs).map XQ.fin).map (fun z => z.sub (XQ.fin (qminL (x :: xs)))) =
      ((x :: xs).map fun y => y - qminL (x :: xs)).map XQ.fin := by
    simp only [List.map_map]
    rfl
  have hcons : (x :: xs).map (fun y => y - qminL (x :: xs)) =
      (x - qminL (x :: xs)) :: xs.map (fun y => y - qminL (x :: xs)) := by
    simp
  have hmax : npMaxX (((x :: xs).map fun y => y - qminL (x :: xs)).map XQ.fin) =
      some (XQ.fin (qmaxL (x :: xs) - qminL (x :: xs))) := by
    rw [hcons, List.map_cons, npMaxX, foldl_maxv_fin]
    rw [← qmaxL_map_sub x xs (qminL (x :: xs)), hcons]
    rfl
  simp only [normalize, hmin, hshift, hmax]
  rw [List.map_map]
  rfl

/-- A min-fold over elements all equal to the accumulator stays put. -/
theorem foldl_min_all_eq (c : ℚ) :
    ∀ xs : List ℚ, (∀ y ∈ xs, y = c) → xs.foldl min c = c := by
  intro xs
  induction xs with
  | nil => intro _; rfl
  | cons y ys ih =>
    intro h
    rw [List.foldl_cons, h y (List.mem_cons_self y ys), min_self]
    exact ih fun z hz => h z (List.mem_cons_of_mem y hz)

/-- A max-fold over elements all equal to the accumulator stays put. -/
theorem foldl_max_all_eq (c : ℚ) :
    ∀ xs : List ℚ, (∀ y ∈ xs, y = c) → xs.foldl max c = c := by
  intro xs
  induction xs with
  | nil => intro _; rfl
  | cons y ys ih =>
    intro h
    rw [List.foldl_cons, h y (List.mem_cons_self y ys), max_self]
    exact ih fun z hz => h z (List.mem_cons_of_mem y hz)

/-- C9: `normalize` on a constant (nonempty) array: the divisor — the maximum
after subtracting the minimum — is zero, the division is unguarded, and every
entry of the result is the non-finite `nan` (`0/0`) instead of raising or
being a normalized value. -/
theorem normalize_constant_gives_nonfinite (l : List ℚ) (hne : l ≠ [])
    (hc : ∀ a ∈ l, ∀ b ∈ l, a = b) :
    ∃ r, normalize (l.map XQ.fin) = some r ∧ r.length = l.length ∧
      qmaxL (l.map fun y => y - qminL l) = 0 ∧ ∀ v ∈ r, v = XQ.nan := by
  obtain ⟨x, xs, rfl⟩ := List.exists_cons_of_ne_nil hne
  have hall : ∀ a ∈ x :: xs, a = x := fun a ha => hc a ha x (List.mem_cons_self x xs)
  have hminx : qminL (x :: xs) = x :=
    foldl_min_all_eq x xs fun y hy => hall y (List.mem_cons_of_mem x hy)
  have hmaxx : qmaxL (x :: xs) = x :=
    foldl_max_all_eq x xs fun y hy => hall y (List.mem_cons_of_mem x hy)
  have hshift0 : ∀ y ∈ (x :: xs).map (fun y => y - qminL (x :: xs)), y = 0 := by
    intro y hy
    obtain ⟨a, ha, rfl⟩ := List.mem_map.mp hy
    rw [hall a ha, hminx, sub_self]
  have hdiv0 : qmaxL (x :: xs) - qminL (x :: xs) = 0 := by
    rw [hminx, hmaxx, sub_self]
  refine ⟨_, normalize_fin_eq x xs, by simp, ?_, ?_⟩
  · have hx0 : x - qminL (x :: xs) = 0 := by rw [hminx, sub_self]
    have hxs0 : ∀ y ∈ xs.map (fun y => y - qminL (x :: xs)), y = 0 := fun y hy =>
      hshift0 y (by rw [List.map_cons]; exact List.mem_cons_of_mem _ hy)
    rw [List.map_cons, qmaxL, hx0]
    exact foldl_max_all_eq 0 _ hxs0
  · intro v hv
    obtain ⟨y, hy, rfl⟩ := List.mem_map.mp hv
    rw [hshift0 y hy, hdiv0]
    simp [XQ.div]

/-- C6: `normalize` is idempotent on non-constant arrays: when not all
elements are equal, `normalize` succeeds and a second application returns the
same (already-normalized) array. -/
theorem normalize_idempotent (l : List ℚ) (h : ∃ a ∈ l, ∃ b ∈ l, a ≠ b) :
    ∃ r, normalize (l.map XQ.fin) = some r ∧ normalize r = some r := by
  have hne : l ≠ [] := by
    rintro rfl
    obtain ⟨a, ha, -⟩ := h
    cases ha
  obtain ⟨x, xs, rfl⟩ := List.exists_cons_of_ne_nil hne
  set m := qminL (x :: xs) with hm
  set M := qmaxL (x :: xs) - m with hMdef
  have hMpos : 0 < M := sub_pos.mpr (qminL_lt_qmaxL _ h)
  have hr : normalize ((x :: xs).map XQ.fin) =
      some (((x :: xs).map fun y => (y - m) / M).map XQ.fin) := by
    rw [normalize_fin_eq x xs]
    congr 1
    simp only [List.map_map]
    apply List.map_congr_left
    intro a _
    simp [XQ.div, hMpos.ne']
  refine ⟨_, hr, ?_⟩
  have hl2 : ((x :: xs).map fun y => (y - m) / M) =
      ((x :: xs).map fun y => y - m).map fun y => y / M := by
    rw [List.map_map]
    rfl
  have hcons2 : ((x :: xs).map fun y => y - m) =
      (x - m) :: xs.map fun y => y - m := by simp
  have hq1 : qminL ((x :: xs).map fun y => (y - m) / M) = 0 := by
    rw [hl2, hcons2, qminL_map_div _ _ M hMpos.le, ← hcons2,
      qminL_map_sub x xs m, ← hm, sub_self, zero_div]
  have hq2 : qmaxL ((x :: xs).map fun y => (y - m) / M) = 1 := by
    rw [hl2, hcons2, qmaxL_map_div _ _ M hMpos.le, ← hcons2,
      qmaxL_map_sub x xs m, ← hMdef, div_self hMpos.ne']
  have hgcons : ((x :: xs).map fun y => (y - m) / M) =
      ((x - m) / M) :: xs.map fun y => (y - m) / M := by simp
  rw [hgcons] at hq1 hq2 ⊢
  rw [normalize_fin_eq ((x - m) / M) (xs.map fun y => (y - m) / M), hq1, hq2]
  simp [XQ.div]

/-- Witness for the C6 theorem at the concrete non-constant array `[0, 1]`. -/
theorem normalize_idempotent_witness :
    (∃ a ∈ [(0 : ℚ), 1], ∃ b ∈ [(0 : ℚ), 1], a ≠ b) ∧
      ∃ r, normalize ([(0 : ℚ), 1].map XQ.fin) = some r ∧ normalize r = some r :=
  ⟨⟨0, by simp, 1, by simp, by norm_num⟩,
    normalize_idempotent [0, 1] ⟨0, by simp, 1, by simp, by norm_num⟩⟩

/-- Witness for the C9 theorem at the concrete constant array `[5, 5]`. -/
theorem normalize_constant_gives_nonfinite_witness :
    ([(5 : ℚ), 5] ≠ []) ∧ (∀ a ∈ [(5 : ℚ), 5], ∀ b ∈ [(5 : ℚ), 5], a = b) ∧
      ∃ r, normalize ([(5 : ℚ), 5].map XQ.fin) = some r ∧
        r.length = ([(5 : ℚ), 5] : List ℚ).length ∧
        qmaxL ([(5 : ℚ), 5].map fun y => y - qminL [(5 : ℚ), 5]) = 0 ∧
        ∀ v ∈ r, v = XQ.nan :=
  ⟨by simp,
    fun a ha b hb => by
      simp only [List.mem_cons, List.not_mem_nil, or_false, or_self] at ha hb
      rw [ha, hb],
    normalize_constant_gives_nonfinite [5, 5] (by simp) fun a ha b hb => by
      simp only [List.mem_cons, List.not_mem_nil, or_false, or_self] at ha hb
      rw [ha, hb]⟩

/-! ### C1, C3: structure and totality of `find_extrema_and_prominence` -/

/-- The worker of `npArgmax` returns an index below `i + length` whenever the
running best index is below `i`. -/
theorem npArgmaxGo_lt [LinearOrder α] (ys : List α) :
    ∀ (b : α) (bi i : ℕ), bi < i → npArgmaxGo ys b bi i < i + ys.length := by
  induction ys with
  | nil => intro b bi i h; simpa [npArgmaxGo] using h
  | cons y ys ih =>
    intro b bi i h
    rw [npArgmaxGo]
    by_cases hc : b < y
    · rw [if_pos hc]
      have := ih y i (i + 1) (Nat.lt_succ_self i)
      simp only [List.length_cons]
      omega
    · rw [if_neg hc]
      have := ih b bi (i + 1) (Nat.lt_succ_of_lt h)
      simp only [List.length_cons]
      omega

/-- The worker of `npArgmin` returns an index below `i + length` whenever the
running best index is below `i`. -/
theorem npArgminGo_lt [LinearOrder α] (ys : List α) :
    ∀ (b : α) (bi i : ℕ), bi < i → npArgminGo ys b bi i < i + ys.length := by
  induction ys with
  | nil => intro b bi i h; simpa [npArgminGo] using h
  | cons y ys ih =>
    intro b bi i h
    rw [npArgminGo]
    by_cases hc : y < b
    · rw [if_pos hc]
      have := ih y i (i + 1) (Nat.lt_succ_self i)
      simp only [List.length_cons]
      omega
    · rw [if_neg hc]
      have := ih b bi (i + 1) (Nat.lt_succ_of_lt h)
      simp only [List.length_cons]
      omega

/-- Applying `npArgmax` to a nonempty list yields an in-range index. -/
theorem npArgmax_lt_length [LinearOrder α] (x : α) (xs : List α) :
    ∃ i, npArgmax (x :: xs) = some i ∧ i < (x :: xs).length :=
  ⟨npArgmaxGo xs x 0 1, rfl, by
    have := npArgmaxGo_lt xs x 0 1 Nat.zero_lt_one
    simpa [Nat.add_comm] using this⟩

/-- Applying `npArgmin` to a nonempty list yields an in-range index. -/
theorem npArgmin_lt_length [LinearOrder α] (x : α) (xs : List α) :
    ∃ i, npArgmin (x :: xs) = some i ∧ i < (x :: xs).length :=
  ⟨npArgminGo xs x 0 1, rfl, by
    have := npArgminGo_lt xs x 0 1 Nat.zero_lt_one
    simpa [Nat.add_comm] using this⟩

/-- Relative extrema indices are strictly ascending and in range. -/
theorem boolRelExtrema_sorted_lt (c : ℚ → ℚ → Bool) (sig : List ℚ) (order : ℕ) :
    (boolRelExtrema c sig order).Pairwise (· < ·) ∧
      ∀ m ∈ boolRelExtrema c sig order, m < sig.length := by
  constructor
  · exact (List.pairwise_lt_range sig.length).sublist (List.filter_sublist _)
  · intro m hm
    have := List.mem_of_mem_filter hm
    exact List.mem_range.mp this

/-- Sortedness and range bounds, maintained by the `find_extrema_and_prominence`
retry loop for the maxima side. -/
theorem fepLoop_max_spec (sig : List ℚ) (dflt : List ℕ)
    (hd : dflt.Pairwise (· < ·) ∧ ∀ m ∈ dflt, m < sig.length) :
    ∀ order, (fepLoop relative_maxima sig dflt order).Pairwise (· < ·) ∧
      ∀ m ∈ fepLoop relative_maxima sig dflt order, m < sig.length := by
  intro order
  cases order with
  | zero => exact hd
  | succ k =>
    have : relative_maxima sig (k + 1) =
        some (boolRelExtrema (fun a b => decide (b < a)) sig (k + 1)) := by
      simp [relative_maxima]
    rw [fepLoop, this]
    exact boolRelExtrema_sorted_lt _ sig (k + 1)

/-- Sortedness and range bounds, maintained by the `find_extrema_and_prominence`
retry loop for the minima side. -/
theorem fepLoop_min_spec (sig : List ℚ) (dflt : List ℕ)
    (hd : dflt.Pairwise (· < ·) ∧ ∀ m ∈ dflt, m < sig.length) :
    ∀ order, (fepLoop relative_minima sig dflt order).Pairwise (· < ·) ∧
      ∀ m ∈ fepLoop relative_minima sig dflt order, m < sig.length := by
  intro order
  cases order with
  | zero => exact hd
  | succ k =>
    have : relative_minima sig (k + 1) =
        some (boolRelExtrema (fun a b => decide (a < b)) sig (k + 1)) := by
      simp [relative_minima]
    rw [fepLoop, this]
    exact boolRelExtrema_sorted_lt _ sig (k + 1)

/-- Pointwise reading of a `zipWith XQ.sub` of two length-`n` lists. -/
theorem zipWith_sub_getD (a b : List XQ) (n : ℕ) (ha : a.length = n) (hb : b.length = n)
    (i : ℕ) (hi : i < n) :
    (List.zipWith XQ.sub a b).getD i XQ.nan = (a.getD i XQ.nan).sub (b.getD i XQ.nan) := by
  rw [List.getD_eq_getElem _ _ (by rw [List.length_zipWith, ha, hb, min_self]; exact hi),
    List.getD_eq_getElem _ _ (by rw [ha]; exact hi),
    List.getD_eq_getElem _ _ (by rw [hb]; exact hi),
    List.getElem_zipWith]

/-- Structural validity of an `ExtremeAndProminence` record for a signal of
length `n`: nonempty, strictly ascending, in-range extrema index arrays; all
point sequences of length exactly `n`; the point sequences are the spline
functions sampled on `xpts`; and the prominence is the pointwise difference
of the two envelopes. -/
def EAPOk (r : ExtremeAndProminence) (n : ℕ) : Prop :=
  r.maxima ≠ [] ∧ r.minima ≠ [] ∧
  r.maxima.Pairwise (· < ·) ∧ (∀ m ∈ r.maxima, m < n) ∧
  r.minima.Pairwise (· < ·) ∧ (∀ m ∈ r.minima, m < n) ∧
  r.xpts.length = n ∧
  r.max_spline_points.length = n ∧
  r.min_spline_points.length = n ∧
  r.prominence.length = n ∧
  r.max_spline_points = r.xpts.map r.max_spline ∧
  r.min_spline_points = r.xpts.map r.min_spline ∧
  r.prominence = List.zipWith XQ.sub r.max_spline_points r.min_spline_points ∧
  ∀ i, i < n → r.prominence.getD i XQ.nan =
    (r.max_spline_points.getD i XQ.nan).sub (r.min_spline_points.getD i XQ.nan)

/-- Master specification of `find_extrema_and_prominence`: on every nonempty
signal (any order, any spline implementations) it succeeds and the result is
structurally valid. -/
theorem fep_spec (maxFit minFit : SplineFitter) (sig : List ℚ) (order : ℕ)
    (h : sig ≠ []) :
    ∃ r, find_extrema_and_prominence maxFit minFit sig order = some r ∧
      EAPOk r sig.length := by
  obtain ⟨x, xs, rfl⟩ := List.exists_cons_of_ne_nil h
  obtain ⟨am, ham, hamlt⟩ := npArgmax_lt_length x xs
  obtain ⟨an, han, hanlt⟩ := npArgmin_lt_length x xs
  have hmax0 := fepLoop_max_spec (x :: xs) [am]
    ⟨List.pairwise_singleton _ _, by simpa using hamlt⟩ order
  have hmin0 := fepLoop_min_spec (x :: xs) [an]
    ⟨List.pairwise_singleton _ _, by simpa using hanlt⟩ order
  rw [find_extrema_and_prominence, ham, han]
  refine ⟨_, rfl, ?_, ?_, ?_, ?_, ?_, ?_, ?_, ?_, ?_, ?_, rfl, rfl, rfl, ?_⟩
  · by_cases hempty : fepLoop relative_maxima (x :: xs) [am] order = [] <;>
      simp [hempty]
  · by_cases hempty : fepLoop relative_minima (x :: xs) [an] order = [] <;>
      simp [hempty]
  · by_cases hempty : fepLoop relative_maxima (x :: xs) [am] order = []
    · simp [hempty]
    · simpa [hempty] using hmax0.1
  · by_cases hempty : fepLoop relative_maxima (x :: xs) [am] order = []
    · simpa [hempty] using hamlt
    · simpa [hempty] using hmax0.2
  · by_cases hempty : fepLoop relative_minima (x :: xs) [an] order = []
    · simp [hempty]
    · simpa [hempty] using hmin0.1
  · by_cases hempty : fepLoop relative_minima (x :: xs) [an] order = []
    · simpa [hempty] using hanlt
    · simpa [hempty] using hmin0.2
  · dsimp only
    simp only [List.length_map, List.length_range]
  · dsimp only
    simp only [List.length_map, List.length_range]
  · dsimp only
    simp only [List.length_map, List.length_range]
  · dsimp only
    simp only [List.length_zipWith, List.length_map, List.length_range, min_self]
  · dsimp only
    intro i hi
    exact zipWith_sub_getD _ _ _ (by simp) (by simp) i hi

/-- A trivial spline implementation (evaluation returns the query point),
used only to instantiate the spline-fit parameter at concrete inputs. -/
def idFit : SplineFitter :=
  fun _ _ _ _ t => t

/-- C1: for every nonempty signal and any order (and any implementation of
the external spline fit), `find_extrema_and_prominence` returns a result
whose `max_spline_points`, `min_spline_points` and `prominence` sequences
have length exactly `N`, with `prominence[i] = max_spline_points[i] -
min_spline_points[i]` at every index, and whose maxima and minima index
arrays are strictly ascending (hence duplicate-free) and contained in
`[0, N-1]`. -/
theorem find_extrema_structure (maxFit minFit : SplineFitter) (sig : List ℚ)
    (order : ℕ) (h : sig ≠ []) :
    ∃ r, find_extrema_and_prominence maxFit minFit sig order = some r ∧
      r.max_spline_points.length = sig.length ∧
      r.min_spline_points.length = sig.length ∧
      r.prominence.length = sig.length ∧
      (∀ i, i < sig.length → r.prominence.getD i XQ.nan =
        (r.max_spline_points.getD i XQ.nan).sub (r.min_spline_points.getD i XQ.nan)) ∧
      r.maxima.Pairwise (· < ·) ∧ (∀ m ∈ r.maxima, m < sig.length) ∧
      r.minima.Pairwise (· < ·) ∧ (∀ m ∈ r.minima, m < sig.length) := by
  obtain ⟨r, hr, hok⟩ := fep_spec maxFit minFit sig order h
  obtain ⟨-, -, hpw1, hlt1, hpw2, hlt2, -, hlen1, hlen2, hlen3, -, -, -, hpt⟩ := hok
  exact ⟨r, hr, hlen1, hlen2, hlen3, hpt, hpw1, hlt1, hpw2, hlt2⟩

/-- Witness for the C1 theorem at the concrete signal `[0, 1, 0]`, order 2. -/
theorem find_extrema_structure_witness :
    (([(0 : ℚ), 1, 0] : List ℚ) ≠ []) ∧
      ∃ r, find_extrema_and_prominence idFit idFit [0, 1, 0] 2 = some r ∧
        r.max_spline_points.length = ([(0 : ℚ), 1, 0] : List ℚ).length ∧
        r.min_spline_points.length = ([(0 : ℚ), 1, 0] : List ℚ).length ∧
        r.prominence.length = ([(0 : ℚ), 1, 0] : List ℚ).length ∧
        (∀ i, i < ([(0 : ℚ), 1, 0] : List ℚ).length → r.prominence.getD i XQ.nan =
          (r.max_spline_points.getD i XQ.nan).sub (r.min_spline_points.getD i XQ.nan)) ∧
        r.maxima.Pairwise (· < ·) ∧
        (∀ m ∈ r.maxima, m < ([(0 : ℚ), 1, 0] : List ℚ).length) ∧
        r.minima.Pairwise (· < ·) ∧
        (∀ m ∈ r.minima, m < ([(0 : ℚ), 1, 0] : List ℚ).length) :=
  ⟨by simp, find_extrema_structure idFit idFit [0, 1, 0] 2 (by simp)⟩

/-- When the detection loop finds no relative maxima (order 0, or the
relative-extrema scan returned the empty index array), the documented
fallback fires: `maxima` is the singleton global-argmax index. Dual fact for
minima. -/
theorem fep_fallbacks (maxFit minFit : SplineFitter) (x : ℚ) (xs : List ℚ)
    (order : ℕ) (r : ExtremeAndProminence)
    (hr : find_extrema_and_prominence maxFit minFit (x :: xs) order = some r) :
    ((order = 0 ∨ relative_maxima (x :: xs) order = some []) →
      r.maxima = [npArgmaxGo xs x 0 1]) ∧
    ((order = 0 ∨ relative_minima (x :: xs) order = some []) →
      r.minima = [npArgminGo xs x 0 1]) := by
  simp only [find_extrema_and_prominence, npArgmax, npArgmin, Option.some_inj] at hr
  subst hr
  constructor
  · rintro (rfl | hrel)
    · simp [fepLoop]
    · cases order with
      | zero => simp [fepLoop]
      | succ k =>
        dsimp only
        rw [fepLoop, hrel]
        simp
  · rintro (rfl | hrel)
    · simp [fepLoop]
    · cases order with
      | zero => simp [fepLoop]
      | succ k =>
        dsimp only
        rw [fepLoop, hrel]
        simp

/-- C3: on every nonempty finite signal — including signals shorter than 4
samples, flat signals and monotonic signals, for any order —
`find_extrema_and_prominence` does not raise (it returns `some`), the
documented deterministic fallbacks handle every degenerate condition (the
global argmax/argmin index when no relative extrema are found), and a
structurally valid result is always returned. -/
theorem find_extrema_total (maxFit minFit : SplineFitter) (sig : List ℚ)
    (order : ℕ) (h : sig ≠ []) :
    (find_extrema_and_prominence maxFit minFit sig order).isSome = true ∧
      ∀ r, find_extrema_and_prominence maxFit minFit sig order = some r →
        r.maxima ≠ [] ∧ r.minima ≠ [] ∧ EAPOk r sig.length ∧
        ((order = 0 ∨ relative_maxima sig order = some []) →
          ∃ am, npArgmax sig = some am ∧ r.maxima = [am]) ∧
        ((order = 0 ∨ relative_minima sig order = some []) →
          ∃ an, npArgmin sig = some an ∧ r.minima = [an]) := by
  obtain ⟨x, xs, rfl⟩ := List.exists_cons_of_ne_nil h
  obtain ⟨r, hr, hok⟩ := fep_spec maxFit minFit (x :: xs) order h
  refine ⟨by rw [hr]; rfl, fun q hq => ?_⟩
  have hq' := hq
  rw [hr, Option.some_inj] at hq'
  obtain ⟨hfb1, hfb2⟩ := fep_fallbacks maxFit minFit x xs order q hq
  rw [← hq']
  exact ⟨hok.1, hok.2.1, hok,
    fun ho => ⟨npArgmaxGo xs x 0 1, rfl, hq' ▸ hfb1 ho⟩,
    fun ho => ⟨npArgminGo xs x 0 1, rfl, hq' ▸ hfb2 ho⟩⟩

/-- Witness for the C3 theorem at the concrete monotonic signal `[3, 2, 1]`
(no relative extrema at any order: both fallbacks fire), order 5. -/
theorem find_extrema_total_witness :
    (([(3 : ℚ), 2, 1] : List ℚ) ≠ []) ∧
      ((find_extrema_and_prominence idFit idFit [3, 2, 1] 5).isSome = true ∧
        ∀ r, find_extrema_and_prominence idFit idFit [3, 2, 1] 5 = some r →
          r.maxima ≠ [] ∧ r.minima ≠ [] ∧ EAPOk r ([(3 : ℚ), 2, 1] : List ℚ).length ∧
          ((5 = 0 ∨ relative_maxima [3, 2, 1] 5 = some []) →
            ∃ am, npArgmax ([(3 : ℚ), 2, 1] : List ℚ) = some am ∧ r.maxima = [am]) ∧
          ((5 = 0 ∨ relative_minima [3, 2, 1] 5 = some []) →
            ∃ an, npArgmin ([(3 : ℚ), 2, 1] : List ℚ) = some an ∧ r.minima = [an])) :=
  ⟨by simp, find_extrema_total idFit idFit [3, 2, 1] 5 (by simp)⟩

/-! ### C5, C10: `threshold_outliers` -/

/-- What the clamp description asserts elementwise about `threshold_outliers`
on real-valued data: each output entry is the input entry, unless its excess
above the median exceeds `times_std·std` (clamped to `median + times_std·std`)
or it lies below the median deviating by more than `times_std·std` (clamped to
`median - times_std·std`). -/
def ClampSpec (data : List ℚ) (t : ℚ) : Prop :=
  (threshold_outliers data t).length = data.length ∧
  ∀ i, i < data.length → (threshold_outliers data t).getD i 0 =
    if ((data.getD i 0 : ℚ) : ℝ) - ((npMedian data : ℚ) : ℝ) > ((t : ℚ) : ℝ) * npStd data
      then ((npMedian data : ℚ) : ℝ) + ((t : ℚ) : ℝ) * npStd data
    else if ((data.getD i 0 : ℚ) : ℝ) - ((npMedian data : ℚ) : ℝ) < 0 ∧
        |((data.getD i 0 : ℚ) : ℝ) - ((npMedian data : ℚ) : ℝ)| > ((t : ℚ) : ℝ) * npStd data
      then ((npMedian data : ℚ) : ℝ) - ((t : ℚ) : ℝ) * npStd data
    else ((data.getD i 0 : ℚ) : ℝ)

/-- For a nonnegative `times_std`, the two sequential masked assignments of
`threshold_outliers` act on each original entry exactly as the elementwise
clamp description says (an entry clamped up to `median + times_std·std` is
never re-clamped by the second mask, because its new deviation
`times_std·std` is nonnegative). -/
theorem threshold_outliers_pointwise (data : List ℚ) (t : ℚ) (ht : 0 ≤ t) :
    ClampSpec data t := by
  constructor
  · simp [threshold_outliers]
  · intro i hi
    have hts : 0 ≤ ((t : ℚ) : ℝ) * npStd data :=
      mul_nonneg (by exact_mod_cast ht) (Real.sqrt_nonneg _)
    have hlen : i < (threshold_outliers data t).length := by
      simpa [threshold_outliers] using hi
    rw [List.getD_eq_getElem _ _ hlen, List.getD_eq_getElem _ _ hi]
    simp only [threshold_outliers, List.getElem_map]
    by_cases h1 : ((data[i] : ℚ) : ℝ) - ((npMedian data : ℚ) : ℝ) > ((t : ℚ) : ℝ) * npStd data
    · rw [if_pos h1, if_pos h1, if_neg]
      intro hcon
      have : ((npMedian data : ℚ) : ℝ) + ((t : ℚ) : ℝ) * npStd data -
          ((npMedian data : ℚ) : ℝ) = ((t : ℚ) : ℝ) * npStd data := by ring
      rw [this] at hcon
      exact absurd hcon.1 (not_lt.mpr hts)
    · rw [if_neg h1, if_neg h1]

/-- Median of the doctest array. -/
theorem npMedian_doctest :
    npMedian ([10, 9, 11, 40, 8, 12, 14, 7] : List ℚ) = 21 / 2 := by
  norm_num [npMedian, List.insertionSort, List.orderedInsert]

/-- Population variance of the doctest array. -/
theorem npVariance_doctest :
    npVariance ([10, 9, 11, 40, 8, 12, 14, 7] : List ℚ) = 6519 / 64 := by
  norm_num [npVariance, npMean]

/-- The integer-dtype doctest of `threshold_outliers`: the outlier 40 is
clamped to `int(10.5 + std) = 20` (the clamp bound 10.5 + std ≈ 20.59 is
truncated by the int64 dtype), every other entry is unchanged. -/
theorem threshold_outliers_int_doctest :
    threshold_outliers_int [10, 9, 11, 40, 8, 12, 14, 7] 1 =
      [10, 9, 11, 20, 8, 12, 14, 7] := by
  have hdq : (([10, 9, 11, 40, 8, 12, 14, 7] : List ℤ).map fun i : ℤ => (i : ℚ)) =
      ([10, 9, 11, 40, 8, 12, 14, 7] : List ℚ) := by norm_num
  have h1 : (19 / 2 : ℝ) ≤ Real.sqrt (6519 / 64) := by
    rw [Real.le_sqrt (by norm_num)] <;> norm_num
  have h2 : Real.sqrt (6519 / 64) < 21 / 2 := by
    rw [Real.sqrt_lt' (by norm_num)]; norm_num
  have hstd : npStd ([10, 9, 11, 40, 8, 12, 14, 7] : List ℚ) = Real.sqrt (6519 / 64) := by
    rw [npStd, npVariance_doctest]; norm_num
  have hhi : castIntTrunc (((21 / 2 : ℚ) : ℝ) + ((1 : ℚ) : ℝ) * Real.sqrt (6519 / 64)) =
      20 := by
    have hc : ((21 / 2 : ℚ) : ℝ) + ((1 : ℚ) : ℝ) * Real.sqrt (6519 / 64) =
        21 / 2 + Real.sqrt (6519 / 64) := by push_cast; ring
    rw [castIntTrunc, hc, if_pos (by positivity)]
    rw [Int.floor_eq_iff]
    constructor <;> push_cast <;> linarith
  simp only [threshold_outliers_int, hdq, npMedian_doctest, hstd, hhi]
  set s := Real.sqrt ((6519 : ℝ) / 64) with hs
  simp only [List.map_cons, List.map_nil, List.cons.injEq]
  refine ⟨?_, ?_, ?_, ?_, ?_, ?_, ?_, ?_, trivial⟩ <;>
    · split_ifs <;>
        first
          | rfl
          | (exfalso
             rename_i hc1 hc2
             try push_cast at hc1 hc2
             linarith)
          | (exfalso
             rename_i hc1 hc2
             try push_cast at hc1 hc2
             obtain ⟨hA, hB⟩ := hc2
             rcases lt_abs.mp hB with hB | hB <;> linarith)

/-- C5: `threshold_outliers` computes the median and standard deviation of the
data and performs the asymmetric clamp (unconditional upper clamp to
`median + times_std·std`, then the conditional lower clamp to
`median - times_std·std` for values below the median deviating by more than
the threshold); in particular the integer doctest
`threshold_outliers([10,9,11,40,8,12,14,7], times_std=1.0)` returns
`[10,9,11,20,8,12,14,7]` (the clamp bound is coerced to the int dtype).
Stated for nonnegative `times_std`, as at every call site. -/
theorem threshold_outliers_clamps (data : List ℚ) (times_std : ℚ)
    (ht : 0 ≤ times_std) :
    ClampSpec data times_std ∧
      threshold_outliers_int [10, 9, 11, 40, 8, 12, 14, 7] 1 =
        [10, 9, 11, 20, 8, 12, 14, 7] :=
  ⟨threshold_outliers_pointwise data times_std ht, threshold_outliers_int_doctest⟩

/-- Witness for the C5 theorem at the doctest array and `times_std = 1`. -/
theorem threshold_outliers_clamps_witness :
    (0 : ℚ) ≤ 1 ∧
      (ClampSpec [10, 9, 11, 40, 8, 12, 14, 7] 1 ∧
        threshold_outliers_int [10, 9, 11, 40, 8, 12, 14, 7] 1 =
          [10, 9, 11, 20, 8, 12, 14, 7]) :=
  ⟨by norm_num, threshold_outliers_clamps [10, 9, 11, 40, 8, 12, 14, 7] 1 (by norm_num)⟩

/-- C10: running `threshold_outliers` in the heap model never mutates the
caller's array (the body rebinds `data` to a copy before the in-place masked
assignments): after the call the argument array is element-for-element
unchanged, the returned address is a fresh one, and the array there is the
pure integer-dtype result — of the same length (and integer dtype, with the
clamp bounds truncated by `castIntTrunc`) as the input. -/
theorem threshold_outliers_prog_frame (s0 : NpState) (a : ℕ) (t : ℚ)
    (ha : a < s0.arrays.length) :
    npRead (threshold_outliers_prog s0 a t).1 a = npRead s0 a ∧
    (threshold_outliers_prog s0 a t).2 ≠ a ∧
    npRead (threshold_outliers_prog s0 a t).1 (threshold_outliers_prog s0 a t).2 =
      threshold_outliers_int (npRead s0 a) t ∧
    (npRead (threshold_outliers_prog s0 a t).1 (threshold_outliers_prog s0 a t).2).length =
      (npRead s0 a).length := by
  have hne : s0.arrays.length ≠ a := Nat.ne_of_gt ha
  have hv : (s0.arrays ++ [npRead s0 a]).getD s0.arrays.length [] = npRead s0 a := by
    simp [List.getD]
  refine ⟨?_, ?_, ?_, ?_⟩
  · simp only [threshold_outliers_prog, npAlloc, npWrite, npRead]
    simp [List.getD, List.getElem?_set_ne hne, List.getElem?_append, ha]
  · simp only [threshold_outliers_prog, npAlloc]
    exact hne
  · simp only [threshold_outliers_prog, npAlloc, npWrite, npRead, threshold_outliers_int]
    simp only [npRead] at hv
    simp [List.getD, List.getElem?_set_self, hv, List.length_set, List.length_append]
  · simp only [threshold_outliers_prog, npAlloc, npWrite, npRead]
    simp only [npRead] at hv
    simp [List.getD, List.getElem?_set_self, hv, List.length_set, List.length_append]

/-! ### C2: the segment logic of `find_cells_in_channel` -/

/-- The function `threshold_outliers` preserves length. -/
theorem threshold_outliers_length (data : List ℚ) (t : ℚ) :
    (threshold_outliers data t).length = data.length := by
  simp [threshold_outliers]

/-- The processed profile has one entry per image row (for any
length-preserving smoother). -/
theorem processed_profile_length (hs : List ℚ → ℕ → List ℚ) (w : ℕ)
    (image : List (List ℚ)) (hhs : ∀ s ww, (hs s ww).length = s.length) :
    (processed_profile hs w image).length = image.length := by
  simp [processed_profile, simple_baseline_correction, vertical_mean,
    List.length_map, List.length_zipWith, hhs, min_self]

/-- The binarized profile has one entry per image row. -/
theorem binary_profile_length (otsuThr : List (List ℚ) → ℚ) (bias : ℚ)
    (image : List (List ℚ)) :
    (binary_profile otsuThr bias image).length = image.length := by
  simp [binary_profile, vertical_mean]

/-- Adjacent candidate pairs (zipping `0 :: positions` with `positions`) are
linked: the right endpoint of an earlier pair bounds the left endpoint of any
later pair, when `positions` is strictly ascending. -/
theorem zip_shift_pairwise (pos : List ℕ) (hpos : pos.Pairwise (· < ·)) :
    (List.zip (0 :: pos) pos).Pairwise fun u v : ℕ × ℕ => u.2 ≤ v.1 := by
  rw [List.pairwise_iff_getElem]
  intro i j hi hj hij
  have hzl : (List.zip (0 :: pos) pos).length = pos.length := by
    rw [List.length_zip]
    simp
  rw [hzl] at hi hj
  have hi' : i < (0 :: pos).length := by simp; omega
  have hj' : j < (0 :: pos).length := by simp; omega
  rw [List.getElem_zip, List.getElem_zip]
  show pos[i] ≤ (0 :: pos)[j]
  obtain ⟨j', rfl⟩ : ∃ j', j = j' + 1 := ⟨j - 1, by omega⟩
  rw [List.getElem_cons_succ]
  rcases Nat.lt_or_ge i j' with hlt | hge
  · exact le_of_lt ((List.pairwise_iff_getElem.mp hpos) i j' (by omega) (by omega) hlt)
  · have : i = j' := by omega
    subst this
    exact le_refl _

/-- Acceptance forces a width of at least 3 pixels. -/
theorem is_a_cell_width (pbin : List ℚ) (prom : List XQ) (mb mp : ℚ) (l p : ℕ)
    (h : is_a_cell pbin prom mb mp l p = true) : l + 3 ≤ p := by
  rw [is_a_cell, Bool.and_assoc, Bool.and_eq_true, decide_eq_true_eq] at h
  omega

/-- What C2 asserts of `find_cells_in_channel`: the call succeeds; candidate
split points are exactly the detected maxima of strictly positive prominence
plus the terminal sentinel; a segment between consecutive candidates (with
the implicit leading 0) is accepted iff the three criteria hold (width > 2,
mean binarized brightness below the bound, mean prominence above the bound);
the emitted cells are exactly the accepted segments trimmed by one pixel on
each side, in ascending order. -/
def FindCellsSpec (hs : List ℚ → ℕ → List ℚ) (otsuThr : List (List ℚ) → ℚ)
    (maxFit minFit : SplineFitter) (cfg : CellsCfg) (image : List (List ℚ)) : Prop :=
  let prof := processed_profile hs cfg.smoothingLength image
  let pbin := binary_profile otsuThr cfg.otsuBias image
  ∃ cells ext,
    find_cells_in_channel hs otsuThr maxFit minFit cfg image = some cells ∧
    find_extrema_and_prominence maxFit minFit prof cfg.extremaOrder = some ext ∧
    (∀ p, p ∈ candidate_positions ext prof.length ↔
      ((p ∈ ext.maxima ∧ XQ.gtQ (ext.prominence.getD p XQ.nan) 0 = true) ∨
        p = prof.length)) ∧
    (∀ l p : ℕ,
      is_a_cell pbin ext.prominence cfg.maximumBrightness cfg.minimumProminence l p
          = true ↔
        (2 < p - l ∧
          npMean (pySlice pbin l p) < cfg.maximumBrightness ∧
          XQ.gtQ (xqMean (pySlice ext.prominence l p)) cfg.minimumProminence = true)) ∧
    (∀ b e : ℕ, (b, e) ∈ cells ↔
      ∃ i, i < (candidate_positions ext prof.length).length ∧
        is_a_cell pbin ext.prominence cfg.maximumBrightness cfg.minimumProminence
          ((0 :: candidate_positions ext prof.length).getD i 0)
          ((candidate_positions ext prof.length).getD i 0) = true ∧
        b = (0 :: candidate_positions ext prof.length).getD i 0 + 1 ∧
        e = (candidate_positions ext prof.length).getD i 0 - 1) ∧
    List.Pairwise (fun u v : ℕ × ℕ => u.1 < v.1) cells

/-- C2: for every nonempty image, length-preserving smoother, skip feature
disabled (its default), and any Otsu/spline implementations,
`find_cells_in_channel` emits exactly the segments bounded by consecutive
candidate split points (every detected maximum with strictly positive
prominence plus the terminal sentinel, with the implicit leading 0), accepted
iff the width, brightness and prominence criteria all hold, each emitted
trimmed by one pixel per side, in ascending order. -/
theorem find_cells_in_channel_segments (hs : List ℚ → ℕ → List ℚ)
    (otsuThr : List (List ℚ) → ℚ) (maxFit minFit : SplineFitter)
    (cfg : CellsCfg) (image : List (List ℚ))
    (hhs : ∀ s w, (hs s w).length = s.length) (himg : image ≠ [])
    (hskip : cfg.emptyChannelSkipping = false) :
    FindCellsSpec hs otsuThr maxFit minFit cfg image := by
  dsimp only [FindCellsSpec]
  have hproflen : (processed_profile hs cfg.smoothingLength image).length = image.length :=
    processed_profile_length hs cfg.smoothingLength image hhs
  have hprofne : processed_profile hs cfg.smoothingLength image ≠ [] := by
    intro h0
    rw [h0] at hproflen
    exact himg (List.eq_nil_of_length_eq_zero hproflen.symm)
  obtain ⟨ext, hext, hok⟩ :=
    fep_spec maxFit minFit (processed_profile hs cfg.smoothingLength image)
      cfg.extremaOrder hprofne
  have hthlen : (threshold_outliers (vertical_mean image) cfg.outlierTimesSigma).length =
      image.length := by
    simp [threshold_outliers, vertical_mean]
  obtain ⟨z, zs, hth⟩ : ∃ z zs,
      threshold_outliers (vertical_mean image) cfg.outlierTimesSigma = z :: zs := by
    cases hcase : threshold_outliers (vertical_mean image) cfg.outlierTimesSigma with
    | nil =>
      rw [hcase] at hthlen
      exact absurd (List.eq_nil_of_length_eq_zero hthlen.symm) himg
    | cons z zs => exact ⟨z, zs, rfl⟩
  have hcells : find_cells_in_channel hs otsuThr maxFit minFit cfg image =
      some ((List.zip
          (0 :: candidate_positions ext (processed_profile hs cfg.smoothingLength image).length)
          (candidate_positions ext (processed_profile hs cfg.smoothingLength image).length)).filterMap
        fun lp =>
          if is_a_cell (binary_profile otsuThr cfg.otsuBias image) ext.prominence
              cfg.maximumBrightness cfg.minimumProminence lp.1 lp.2 then
            some (lp.1 + 1, lp.2 - 1)
          else none) := by
    simp only [find_cells_in_channel, hth, npMaxL, npMinL, hext]
    rw [if_neg]
    rintro ⟨-, hc⟩
    rw [hskip] at hc
    exact Bool.false_ne_true hc
  have hposOk : (candidate_positions ext
      (processed_profile hs cfg.smoothingLength image).length).Pairwise (· < ·) := by
    rw [candidate_positions]
    refine List.pairwise_append.mpr
      ⟨hok.2.2.1.sublist (List.filter_sublist _), List.pairwise_singleton _ _, ?_⟩
    intro x hx y hy
    rw [List.mem_singleton] at hy
    subst hy
    exact hok.2.2.2.1 x (List.mem_of_mem_filter hx)
  refine ⟨_, ext, hcells, hext, ?_, ?_, ?_, ?_⟩
  · intro p
    simp [candidate_positions, List.mem_append, List.mem_filter]
  · intro l p
    simp [is_a_cell, Bool.and_eq_true, decide_eq_true_eq, and_assoc]
  · intro b e
    rw [List.mem_filterMap]
    have hzl : (List.zip
        (0 :: candidate_positions ext (processed_profile hs cfg.smoothingLength image).length)
        (candidate_positions ext (processed_profile hs cfg.smoothingLength image).length)).length =
        (candidate_positions ext (processed_profile hs cfg.smoothingLength image).length).length := by
      rw [List.length_zip]
      simp
    constructor
    · rintro ⟨a, ha, hfa⟩
      obtain ⟨i, hi, hgot⟩ := List.mem_iff_getElem.mp ha
      rw [List.getElem_zip] at hgot
      rw [hzl] at hi
      by_cases hacc : is_a_cell (binary_profile otsuThr cfg.otsuBias image) ext.prominence
          cfg.maximumBrightness cfg.minimumProminence a.1 a.2 = true
      · rw [if_pos hacc] at hfa
        obtain ⟨hb, he⟩ := Prod.mk.injEq .. |>.mp (Option.some_inj.mp hfa)
        subst hb
        subst he
        refine ⟨i, hi, ?_, ?_, ?_⟩
        · rw [List.getD_eq_getElem _ _ (show i < (0 :: candidate_positions ext
              (processed_profile hs cfg.smoothingLength image).length).length by
                simp only [List.length_cons]; omega),
            List.getD_eq_getElem _ _ hi]
          rw [← hgot] at hacc
          exact hacc
        · rw [List.getD_eq_getElem _ _ (show i < (0 :: candidate_positions ext
              (processed_profile hs cfg.smoothingLength image).length).length by
                simp only [List.length_cons]; omega), ← hgot]
        · rw [List.getD_eq_getElem _ _ hi, ← hgot]
      · rw [if_neg hacc] at hfa
        cases hfa
    · rintro ⟨i, hi, hacc, hb, he⟩
      refine ⟨((0 :: candidate_positions ext
            (processed_profile hs cfg.smoothingLength image).length).getD i 0,
          (candidate_positions ext
            (processed_profile hs cfg.smoothingLength image).length).getD i 0), ?_, ?_⟩
      · rw [List.mem_iff_getElem]
        refine ⟨i, by rw [hzl]; exact hi, ?_⟩
        rw [List.getElem_zip,
          List.getD_eq_getElem _ _ (show i < (0 :: candidate_positions ext
            (processed_profile hs cfg.smoothingLength image).length).length by
              simp only [List.length_cons]; omega),
          List.getD_eq_getElem _ _ hi]
      · rw [if_pos hacc, hb, he]
  · refine (zip_shift_pairwise _ hposOk).filterMap _ ?_
    intro a a2 hr b hb b2 hb2
    by_cases h1 : is_a_cell (binary_profile otsuThr cfg.otsuBias image) ext.prominence
        cfg.maximumBrightness cfg.minimumProminence a.1 a.2 = true
    · by_cases h2 : is_a_cell (binary_profile otsuThr cfg.otsuBias image) ext.prominence
          cfg.maximumBrightness cfg.minimumProminence a2.1 a2.2 = true
      · rw [if_pos h1] at hb
        rw [if_pos h2] at hb2
        rw [Option.mem_def, Option.some_inj] at hb hb2
        subst hb
        subst hb2
        have hw1 := is_a_cell_width _ _ _ _ _ _ h1
        dsimp only
        omega
      · rw [if_neg h2] at hb2
        cases hb2
    · rw [if_neg h1] at hb
      cases hb

/-- Witness for the C2 theorem on a one-pixel image with the identity smoother,
a zero Otsu threshold, trivial spline fits and the default configuration. -/
theorem find_cells_in_channel_segments_witness :
    (∀ (s : List ℚ) (w : ℕ), ((fun (s : List ℚ) (_ : ℕ) => s) s w).length = s.length) ∧
      (([[(1 : ℚ)]] : List (List ℚ)) ≠ []) ∧
      defaultCellsCfg.emptyChannelSkipping = false ∧
      FindCellsSpec (fun s _ => s) (fun _ => 0) idFit idFit defaultCellsCfg [[(1 : ℚ)]] :=
  ⟨fun _ _ => rfl, by simp, rfl,
    find_cells_in_channel_segments (fun s _ => s) (fun _ => 0) idFit idFit defaultCellsCfg
      [[(1 : ℚ)]] (fun _ _ => rfl) (by simp) rfl⟩

/-! ### C4: `find_phase` at the doctest signals -/

/-- The primitive fifth root of unity used to evaluate the length-5 DFT. -/
noncomputable def zeta5 : ℂ :=
  Complex.exp (2 * (Real.pi : ℂ) * Complex.I / 5)

/-- The constant `zeta5` is a primitive fifth root of unity. -/
theorem zeta5_prim : IsPrimitiveRoot zeta5 5 :=
  Complex.isPrimitiveRoot_exp 5 (by norm_num)

/-- Fifth power of `zeta5`. -/
theorem zeta5_pow_five : zeta5 ^ 5 = 1 :=
  zeta5_prim.pow_eq_one

/-- The constant `zeta5` is not 1. -/
theorem zeta5_ne_one : zeta5 ≠ 1 :=
  zeta5_prim.ne_one (by norm_num)

/-- Powers of `zeta5` reduce modulo 5. -/
theorem zeta5_pow_mod (m : ℕ) : zeta5 ^ m = zeta5 ^ (m % 5) := by
  conv_lhs => rw [← Nat.div_add_mod m 5]
  rw [pow_add, pow_mul, zeta5_pow_five, one_pow, one_mul]

/-- The five fifth roots of unity sum to zero. -/
theorem zeta5_sum : 1 + zeta5 + zeta5 ^ 2 + zeta5 ^ 3 + zeta5 ^ 4 = 0 := by
  have h := geom_sum_eq zeta5_ne_one 5
  rw [zeta5_pow_five, sub_self, zero_div] at h
  rw [← h]
  rw [Finset.sum_range_succ, Finset.sum_range_succ, Finset.sum_range_succ,
    Finset.sum_range_succ, Finset.sum_range_succ, Finset.sum_range_zero]
  ring

/-- Any complex exponential whose argument is `2πi·m/5` plus an integer
multiple of `2πi` is the `m`-th power of `zeta5`. -/
theorem exp_eq_zeta5_pow (x : ℂ) (m : ℕ) (n : ℤ)
    (h : x = 2 * (Real.pi : ℂ) * Complex.I * m / 5 + n * (2 * (Real.pi : ℂ) * Complex.I)) :
    Complex.exp x = zeta5 ^ m := by
  rw [h, Complex.exp_add, Complex.exp_int_mul_two_pi_mul_I, mul_one, zeta5,
    ← Complex.exp_nat_mul]
  congr 1
  ring

/-- The conjugate of `zeta5` is its fourth power. -/
theorem conj_zeta5 : (starRingEnd ℂ) zeta5 = zeta5 ^ 4 := by
  rw [zeta5, ← Complex.exp_conj]
  refine exp_eq_zeta5_pow _ 4 (-1) ?_
  simp only [map_div₀, map_mul, Complex.conj_I, Complex.conj_ofReal, map_ofNat]
  ring

/-- DFT of the delta-at-1 doctest signal: descending powers of `zeta5`. -/
theorem dft_doctest_first : dft [0, 1, 0, 0, 0] =
    [zeta5 ^ 0, zeta5 ^ 4, zeta5 ^ 3, zeta5 ^ 2, zeta5 ^ 1] := by
  simp only [dft, List.length_cons, List.length_nil]
  norm_num [List.range_succ, Finset.sum_range_succ, List.getD]
  refine ⟨?_, ?_, ?_, ?_⟩
  · exact exp_eq_zeta5_pow _ 4 (-1) (by push_cast; ring)
  · exact exp_eq_zeta5_pow _ 3 (-1) (by push_cast; ring)
  · exact exp_eq_zeta5_pow _ 2 (-1) (by push_cast; ring)
  · simpa using exp_eq_zeta5_pow (-(2 * (Real.pi : ℂ) * Complex.I * 4) / 5) 1 (-1)
      (by push_cast; ring)

/-- DFT of the delta-at-3 doctest signal. -/
theorem dft_doctest_second : dft [0, 0, 0, 1, 0] =
    [zeta5 ^ 0, zeta5 ^ 2, zeta5 ^ 4, zeta5 ^ 1, zeta5 ^ 3] := by
  simp only [dft, List.length_cons, List.length_nil]
  norm_num [List.range_succ, Finset.sum_range_succ, List.getD]
  refine ⟨?_, ?_, ?_, ?_⟩
  · exact exp_eq_zeta5_pow _ 2 (-1) (by push_cast; ring)
  · exact exp_eq_zeta5_pow _ 4 (-2) (by push_cast; ring)
  · simpa using exp_eq_zeta5_pow (-(2 * (Real.pi : ℂ) * Complex.I * 3 * 3) / 5) 1 (-2)
      (by push_cast; ring)
  · exact exp_eq_zeta5_pow _ 3 (-3) (by push_cast; ring)

/-- The cross-power sequence `fft_1 * -conjugate(fft_2)` of the doctest
signals: `-zeta5^(2k)`. -/
theorem zip_doctest : List.zipWith (fun a b => a * -(starRingEnd ℂ b))
    (dft [0, 1, 0, 0, 0]) (dft [0, 0, 0, 1, 0]) =
    [-zeta5 ^ 0, -zeta5 ^ 2, -zeta5 ^ 4, -zeta5 ^ 1, -zeta5 ^ 3] := by
  rw [dft_doctest_first, dft_doctest_second]
  simp only [List.zipWith_cons_cons, List.zipWith_nil_right, map_pow, conj_zeta5]
  norm_num [← pow_mul, ← pow_add]
  refine ⟨?_, ?_, ?_, ?_⟩
  · rw [zeta5_pow_mod 12]
  · rw [zeta5_pow_mod 19]
  · rw [zeta5_pow_mod 6]; norm_num
  · rw [← pow_succ', zeta5_pow_mod 13]

/-- The inverse transform of the cross-power sequence: a pure peak at
index 3 (value −1, all other correlations zero). -/
theorem corr_doctest :
    idft [-zeta5 ^ 0, -zeta5 ^ 2, -zeta5 ^ 4, -zeta5 ^ 1, -zeta5 ^ 3] =
    [0, 0, 0, -1, 0] := by
  have eA : Complex.exp (2 * (Real.pi : ℂ) * Complex.I / 5) = zeta5 := rfl
  have eB : Complex.exp (2 * (Real.pi : ℂ) * Complex.I * 2 / 5) = zeta5 ^ 2 :=
    exp_eq_zeta5_pow _ 2 0 (by push_cast; ring)
  have eC : Complex.exp (2 * (Real.pi : ℂ) * Complex.I * 3 / 5) = zeta5 ^ 3 :=
    exp_eq_zeta5_pow _ 3 0 (by push_cast; ring)
  have eD : Complex.exp (2 * (Real.pi : ℂ) * Complex.I * 4 / 5) = zeta5 ^ 4 :=
    exp_eq_zeta5_pow _ 4 0 (by push_cast; ring)
  have eE : Complex.exp (2 * (Real.pi : ℂ) * Complex.I * 2 * 2 / 5) = zeta5 ^ 4 :=
    exp_eq_zeta5_pow _ 4 0 (by push_cast; ring)
  have eF : Complex.exp (2 * (Real.pi : ℂ) * Complex.I * 3 * 2 / 5) = zeta5 ^ 6 :=
    exp_eq_zeta5_pow _ 6 0 (by push_cast; ring)
  have eG : Complex.exp (2 * (Real.pi : ℂ) * Complex.I * 4 * 2 / 5) = zeta5 ^ 8 :=
    exp_eq_zeta5_pow _ 8 0 (by push_cast; ring)
  have eH : Complex.exp (2 * (Real.pi : ℂ) * Complex.I * 2 * 3 / 5) = zeta5 ^ 6 :=
    exp_eq_zeta5_pow _ 6 0 (by push_cast; ring)
  have eJ : Complex.exp (2 * (Real.pi : ℂ) * Complex.I * 3 * 3 / 5) = zeta5 ^ 9 :=
    exp_eq_zeta5_pow _ 9 0 (by push_cast; ring)
  have eK : Complex.exp (2 * (Real.pi : ℂ) * Complex.I * 4 * 3 / 5) = zeta5 ^ 12 :=
    exp_eq_zeta5_pow _ 12 0 (by push_cast; ring)
  have eL : Complex.exp (2 * (Real.pi : ℂ) * Complex.I * 2 * 4 / 5) = zeta5 ^ 8 :=
    exp_eq_zeta5_pow _ 8 0 (by push_cast; ring)
  have eM : Complex.exp (2 * (Real.pi : ℂ) * Complex.I * 3 * 4 / 5) = zeta5 ^ 12 :=
    exp_eq_zeta5_pow _ 12 0 (by push_cast; ring)
  have eN : Complex.exp (2 * (Real.pi : ℂ) * Complex.I * 4 * 4 / 5) = zeta5 ^ 16 :=
    exp_eq_zeta5_pow _ 16 0 (by push_cast; ring)
  have p5 : zeta5 ^ 5 = 1 := zeta5_pow_five
  have p6 : zeta5 ^ 6 = zeta5 := by rw [zeta5_pow_mod 6]; norm_num
  have p7 : zeta5 ^ 7 = zeta5 ^ 2 := by rw [zeta5_pow_mod 7]
  have p8 : zeta5 ^ 8 = zeta5 ^ 3 := by rw [zeta5_pow_mod 8]
  have p9 : zeta5 ^ 9 = zeta5 ^ 4 := by rw [zeta5_pow_mod 9]
  have p10 : zeta5 ^ 10 = 1 := by rw [zeta5_pow_mod 10]; norm_num
  have p11 : zeta5 ^ 11 = zeta5 := by rw [zeta5_pow_mod 11]; norm_num
  have p12 : zeta5 ^ 12 = zeta5 ^ 2 := by rw [zeta5_pow_mod 12]
  have p13 : zeta5 ^ 13 = zeta5 ^ 3 := by rw [zeta5_pow_mod 13]
  have p15 : zeta5 ^ 15 = 1 := by rw [zeta5_pow_mod 15]; norm_num
  have p16 : zeta5 ^ 16 = zeta5 := by rw [zeta5_pow_mod 16]; norm_num
  have p20 : zeta5 ^ 20 = 1 := by rw [zeta5_pow_mod 20]; norm_num
  have q1 : zeta5 ^ 4 * zeta5 = 1 := by rw [← pow_succ]; exact p5
  have q2 : zeta5 * zeta5 ^ 4 = 1 := by rw [mul_comm, ← pow_succ]; exact p5
  simp only [idft, List.length_cons, List.length_nil]
  norm_num [List.range_succ, Finset.sum_range_succ, List.getD, eA, eB, eC, eD, eE, eF,
    eG, eH, eJ, eK, eL, eM, eN, ← pow_add, p5, p6, p7, p8, p9, p10, p11, p12, p13,
    p15, p16, p20, q1, q2]
  repeat' constructor
  all_goals linear_combination (-1 : ℂ) * zeta5_sum

/-- C4: `find_phase` forms `corr = ifft(fft_1 * -conjugate(fft_2))`, takes the
magnitude, locates the peak index `m` by argmax, and maps it to the signed
shift (`-m` below `N/2`, else `N - m`); on the doctest signals
`[0,1,0,0,0]` and `[0,0,0,1,0]` the correlation peaks at `m = 3` and the
returned shift is `5 - 3 = 2`. -/
theorem find_phase_doctest :
    find_phase [0, 1, 0, 0, 0] [0, 0, 0, 1, 0] = some 2 := by
  simp only [find_phase, zip_doctest, corr_doctest]
  have habs : List.map (fun z : ℂ => Complex.abs z) [0, 0, 0, -1, 0] =
      ([0, 0, 0, 1, 0] : List ℝ) := by norm_num
  have hargmax : npArgmax ([0, 0, 0, 1, 0] : List ℝ) = some 3 := by
    norm_num [npArgmax, npArgmaxGo]
  have hlen : (dft [0, 1, 0, 0, 0]).length = 5 := by
    simp [dft]
  rw [show List.map (⇑Complex.abs) ([0, 0, 0, -1, 0] : List ℂ) = ([0, 0, 0, 1, 0] : List ℝ)
    from habs, hargmax, hlen]
  norm_num

/-- Witness for the C10 theorem on a one-array heap holding the doctest data. -/
theorem threshold_outliers_prog_frame_witness :
    (0 < (NpState.mk [[10, 9, 11, 40, 8, 12, 14, 7]]).arrays.length) ∧
      (npRead (threshold_outliers_prog ⟨[[10, 9, 11, 40, 8, 12, 14, 7]]⟩ 0 1).1 0 =
          npRead ⟨[[10, 9, 11, 40, 8, 12, 14, 7]]⟩ 0 ∧
        (threshold_outliers_prog ⟨[[10, 9, 11, 40, 8, 12, 14, 7]]⟩ 0 1).2 ≠ 0 ∧
        npRead (threshold_outliers_prog ⟨[[10, 9, 11, 40, 8, 12, 14, 7]]⟩ 0 1).1
            (threshold_outliers_prog ⟨[[10, 9, 11, 40, 8, 12, 14, 7]]⟩ 0 1).2 =
          threshold_outliers_int (npRead ⟨[[10, 9, 11, 40, 8, 12, 14, 7]]⟩ 0) 1 ∧
        (npRead (threshold_outliers_prog ⟨[[10, 9, 11, 40, 8, 12, 14, 7]]⟩ 0 1).1
            (threshold_outliers_prog ⟨[[10, 9, 11, 40, 8, 12, 14, 7]]⟩ 0 1).2).length =
          (npRead ⟨[[10, 9, 11, 40, 8, 12, 14, 7]]⟩ 0).length) :=
  ⟨by simp, threshold_outliers_prog_frame ⟨[[10, 9, 11, 40, 8, 12, 14, 7]]⟩ 0 1 (by simp)⟩

end Molyso
